import Mathlib

/-!
Shallow embedding of the GoF-Design-Patterns repository (Python notebooks):
* `src/Creational/Singleton/Sample.ipynb` — a thread-safe Singleton built on a
  metaclass `SingletonMeta` holding a class-level dict `_instances` and a
  `Lock` `_lock`; `__call__` acquires the lock, checks membership, constructs
  and stores on absence, and returns `self._instances[self]`.
* `src/Behavioral/Observer/Sample.ipynb` — a `ConcreteSubject` with a
  class-level `_observers` list; `attach` appends, `detach` calls
  `list.remove`, `notify` calls `update` on each observer in list order.

Python dicts are embedded as association lists in insertion order; object
identity is embedded as an allocation counter (`ident`) threaded through
construction.  The concurrent behaviour of `SingletonMeta.__call__` is
embedded as a small-step interleaving semantics further below.
-/

namespace GoF

/-- An instance of the underlying class `Singleton`: `__init__` stores the
single constructor argument in `self.__value`.  The `ident` field embeds
Python object identity (`id`): each construction allocates a fresh one. -/
structure Instance where
  value : String
  ident : Nat
deriving DecidableEq, Repr

/-- Lookup in the `_instances` dict, embedded as an association list in
insertion order (`self not in self._instances` is `lookupReg … = none`). -/
def lookupReg : List (String × Instance) → String → Option Instance
  | [], _ => none
  | (k, v) :: rest, t => if k = t then some v else lookupReg rest t

/-- The mutable class-level state of `SingletonMeta`: the `_instances` dict
plus the allocator for object identities. -/
structure SeqState where
  instances : List (String × Instance)
  nextIdent : Nat
deriving DecidableEq, Repr

/-- The empty starting state: `_instances = {}`. -/
def initSeq : SeqState := ⟨[], 0⟩

/-- Sequential embedding of `SingletonMeta.__call__` (one thread, so the
`with self._lock` block is just its body): if `self not in self._instances`,
construct `instance = super().__call__(*args)` and store
`self._instances[self] = instance`; finally return `self._instances[self]`.
The dict indexing of the `return` is kept as an `Option`-valued lookup. -/
def getInstance (st : SeqState) (typeId args : String) : Option Instance × SeqState :=
  if lookupReg st.instances typeId = none then
    let inst : Instance := ⟨args, st.nextIdent⟩
    let newInstances := st.instances ++ [(typeId, inst)]
    (lookupReg newInstances typeId, ⟨newInstances, st.nextIdent + 1⟩)
  else
    (lookupReg st.instances typeId, st)

/-- Run a sequence of `getInstance` calls, each a `(typeId, args)` pair. -/
def runSeq (st : SeqState) (calls : List (String × String)) : SeqState :=
  calls.foldl (fun s c => (getInstance s c.1 c.2).2) st

/-- The registry keys, for the at-most-one-entry-per-identifier invariant. -/
def distinctKeys (R : List (String × Instance)) : Prop :=
  (R.map Prod.fst).Nodup

theorem lookupReg_append_of_none {R : List (String × Instance)} {t : String}
    (h : lookupReg R t = none) (R' : List (String × Instance)) :
    lookupReg (R ++ R') t = lookupReg R' t := by
  induction R with
  | nil => rfl
  | cons p rest ih =>
    obtain ⟨k, v⟩ := p
    by_cases hk : k = t
    · simp [lookupReg, hk] at h
    · simp [lookupReg, hk] at h ⊢
      exact ih h

theorem lookupReg_append_of_some {R : List (String × Instance)} {t : String}
    {v : Instance} (h : lookupReg R t = some v) (R' : List (String × Instance)) :
    lookupReg (R ++ R') t = some v := by
  induction R with
  | nil => simp [lookupReg] at h
  | cons p rest ih =>
    obtain ⟨k, w⟩ := p
    by_cases hk : k = t
    · simp [lookupReg, hk] at h ⊢
      exact h
    · simp [lookupReg, hk] at h ⊢
      exact ih h

theorem lookupReg_none_not_mem {R : List (String × Instance)} {t : String}
    (h : lookupReg R t = none) : t ∉ R.map Prod.fst := by
  induction R with
  | nil => simp
  | cons p rest ih =>
    obtain ⟨k, v⟩ := p
    by_cases hk : k = t
    · simp [lookupReg, hk] at h
    · simp [lookupReg, hk] at h
      simp [hk, ih h]
      exact fun hkt => hk hkt.symm

theorem getInstance_step_mono {st : SeqState} {k : String} {v : Instance}
    (h : lookupReg st.instances k = some v) (t a : String) :
    lookupReg ((getInstance st t a).2).instances k = some v := by
  by_cases habs : lookupReg st.instances t = none
  · simp only [getInstance, habs, if_pos]
    exact lookupReg_append_of_some h _
  · simp only [getInstance, habs, if_neg, not_false_iff]
    exact h

theorem getInstance_step_distinct {st : SeqState}
    (h : distinctKeys st.instances) (t a : String) :
    distinctKeys ((getInstance st t a).2).instances := by
  by_cases habs : lookupReg st.instances t = none
  · simp only [getInstance, habs, if_pos]
    simp only [distinctKeys, List.map_append, List.map_cons, List.map_nil]
    rw [List.nodup_append]
    refine ⟨h, List.nodup_singleton t, ?_⟩
    intro x hx hx'
    simp at hx'
    subst hx'
    exact lookupReg_none_not_mem habs hx
  · simp only [getInstance, habs, if_neg, not_false_iff]
    exact h

theorem runSeq_mono {st : SeqState} {k : String} {v : Instance}
    (h : lookupReg st.instances k = some v) (calls : List (String × String)) :
    lookupReg (runSeq st calls).instances k = some v := by
  induction calls generalizing st with
  | nil => exact h
  | cons c rest ih =>
    show lookupReg (runSeq (getInstance st c.1 c.2).2 rest).instances k = some v
    exact ih (getInstance_step_mono h c.1 c.2)

theorem runSeq_distinct {st : SeqState} (h : distinctKeys st.instances)
    (calls : List (String × String)) :
    distinctKeys (runSeq st calls).instances := by
  induction calls generalizing st with
  | nil => exact h
  | cons c rest ih =>
    show distinctKeys (runSeq (getInstance st c.1 c.2).2 rest).instances
    exact ih (getInstance_step_distinct h c.1 c.2)

/-- C2: a `getInstance` call whose type identifier already has an entry in the
registry returns that stored instance with the state unchanged — the
construction arguments of the call are ignored; in particular after
`getInstance "X" "FOO"` a subsequent `getInstance "X" "BAR"` returns the
first instance, whose stored value is still `"FOO"`. -/
theorem getInstance_existing_returns_stored :
    (∀ (st : SeqState) (typeId args : String) (inst : Instance),
      lookupReg st.instances typeId = some inst →
      getInstance st typeId args = (some inst, st)) ∧
    (getInstance (getInstance initSeq "X" "FOO").2 "X" "BAR").1 =
      some ⟨"FOO", 0⟩ := by
  constructor
  · intro st typeId args inst h
    simp [getInstance, h]
  · decide

theorem getInstance_existing_returns_stored_witness :
    lookupReg ([("X", ⟨"FOO", 0⟩)] : List (String × Instance)) "X" =
      some ⟨"FOO", 0⟩ ∧
    getInstance ⟨[("X", ⟨"FOO", 0⟩)], 1⟩ "X" "BAR" =
      (some ⟨"FOO", 0⟩, ⟨[("X", ⟨"FOO", 0⟩)], 1⟩) :=
  ⟨by decide,
   getInstance_existing_returns_stored.1 ⟨[("X", ⟨"FOO", 0⟩)], 1⟩ "X" "BAR"
     ⟨"FOO", 0⟩ (by decide)⟩

/-- C3: a `getInstance` call whose type identifier has no registry entry yet
constructs an instance from the given construction arguments, stores it in
the registry under that identifier, and returns that stored instance. -/
theorem getInstance_absent_constructs (st : SeqState) (typeId args : String)
    (h : lookupReg st.instances typeId = none) :
    getInstance st typeId args =
      (some ⟨args, st.nextIdent⟩,
       ⟨st.instances ++ [(typeId, ⟨args, st.nextIdent⟩)], st.nextIdent + 1⟩) ∧
    lookupReg (getInstance st typeId args).2.instances typeId =
      some ⟨args, st.nextIdent⟩ := by
  have hl : lookupReg (st.instances ++ [(typeId, ⟨args, st.nextIdent⟩)]) typeId
      = some ⟨args, st.nextIdent⟩ := by
    rw [lookupReg_append_of_none h]
    simp [lookupReg]
  refine ⟨?_, ?_⟩
  · simp [getInstance, h, hl]
  · simp [getInstance, h, hl]

theorem getInstance_absent_constructs_witness :
    lookupReg (initSeq.instances) "X" = none ∧
    getInstance initSeq "X" "FOO" =
      (some ⟨"FOO", 0⟩, ⟨[("X", ⟨"FOO", 0⟩)], 1⟩) :=
  ⟨by decide, (getInstance_absent_constructs initSeq "X" "FOO" (by decide)).1⟩

/-- C4: at every point in every sequence of `getInstance` calls starting from
the empty registry, the registry holds at most one entry per type identifier
(its keys are pairwise distinct), and once an entry is populated it is never
replaced or removed: any entry present after the prefix `pre` is still
present, with the same instance, after any continuation `suf`. -/
theorem registry_at_most_one_entry_never_replaced
    (pre suf : List (String × String)) :
    distinctKeys (runSeq initSeq pre).instances ∧
    ∀ (k : String) (v : Instance),
      lookupReg (runSeq initSeq pre).instances k = some v →
      lookupReg (runSeq (runSeq initSeq pre) suf).instances k = some v := by
  refine ⟨runSeq_distinct ?_ pre, fun k v h => runSeq_mono h suf⟩
  simp [initSeq, distinctKeys]

theorem registry_at_most_one_entry_never_replaced_witness :
    distinctKeys (runSeq initSeq [("X", "FOO")]).instances ∧
    lookupReg (runSeq initSeq [("X", "FOO")]).instances "X" = some ⟨"FOO", 0⟩ ∧
    lookupReg (runSeq (runSeq initSeq [("X", "FOO")]) [("X", "BAR"), ("Y", "Z")]).instances
      "X" = some ⟨"FOO", 0⟩ :=
  ⟨(registry_at_most_one_entry_never_replaced [("X", "FOO")] [("X", "BAR"), ("Y", "Z")]).1,
   by decide,
   (registry_at_most_one_entry_never_replaced [("X", "FOO")] [("X", "BAR"), ("Y", "Z")]).2
     "X" ⟨"FOO", 0⟩ (by decide)⟩

/-- C7: once the registry slot for a type identifier is populated, repeating
`getInstance` for that identifier any number of times with any construction
arguments leaves the state (in particular that registry slot) unmutated. -/
theorem getInstance_idempotent_after_construction (st : SeqState) (t : String)
    (v : Instance) (h : lookupReg st.instances t = some v)
    (argss : List String) :
    runSeq st (argss.map fun a => (t, a)) = st := by
  induction argss with
  | nil => rfl
  | cons a rest ih =>
    show runSeq (getInstance st t a).2 (rest.map fun a => (t, a)) = st
    have hstep : (getInstance st t a).2 = st := by simp [getInstance, h]
    rw [hstep]
    exact ih

theorem getInstance_idempotent_after_construction_witness :
    lookupReg ([("X", ⟨"FOO", 0⟩)] : List (String × Instance)) "X" =
      some ⟨"FOO", 0⟩ ∧
    runSeq ⟨[("X", ⟨"FOO", 0⟩)], 1⟩
      (["BAR", "BAZ", "QUX"].map fun a => ("X", a)) =
      ⟨[("X", ⟨"FOO", 0⟩)], 1⟩ :=
  ⟨by decide,
   getInstance_idempotent_after_construction ⟨[("X", ⟨"FOO", 0⟩)], 1⟩ "X"
     ⟨"FOO", 0⟩ (by decide) ["BAR", "BAZ", "QUX"]⟩

/-- Variant of `SingletonMeta.__call__` where the underlying constructor
`super().__call__(*args)` may raise, embedded as an `Except`-valued
`construct` returning the value the instance would store.  In the source the
dict store `self._instances[self] = instance` is the statement after the
constructor call, so when the constructor raises, the store never executes,
the `with` block releases the lock, and the exception propagates: the error
branch returns the state unchanged. -/
def getInstanceExc (construct : String → Except String String) (st : SeqState)
    (typeId args : String) : Except String (Option Instance) × SeqState :=
  if lookupReg st.instances typeId = none then
    match construct args with
    | Except.error e => (Except.error e, st)
    | Except.ok v =>
      let inst : Instance := ⟨v, st.nextIdent⟩
      let newInstances := st.instances ++ [(typeId, inst)]
      (Except.ok (lookupReg newInstances typeId), ⟨newInstances, st.nextIdent + 1⟩)
  else
    (Except.ok (lookupReg st.instances typeId), st)

/-- C6: when construction raises during a `getInstance` call, the exception
propagates to the caller, the state — in particular the registry slot for
that type identifier — is left unchanged (unpopulated), and a later call for
the same identifier whose construction succeeds does construct and return a
fresh instance. -/
theorem getInstance_construction_failure
    (construct : String → Except String String) (st : SeqState)
    (typeId args e : String)
    (habs : lookupReg st.instances typeId = none)
    (hraise : construct args = Except.error e) :
    getInstanceExc construct st typeId args = (Except.error e, st) ∧
    lookupReg (getInstanceExc construct st typeId args).2.instances typeId
      = none ∧
    ∀ (c2 : String → Except String String) (args2 v : String),
      c2 args2 = Except.ok v →
      (getInstanceExc c2 st typeId args2).1 =
        Except.ok (some ⟨v, st.nextIdent⟩) := by
  have hcall : getInstanceExc construct st typeId args = (Except.error e, st) := by
    simp [getInstanceExc, habs, hraise]
  refine ⟨hcall, ?_, ?_⟩
  · rw [hcall]
    exact habs
  · intro c2 args2 v hok
    have hl : lookupReg (st.instances ++ [(typeId, ⟨v, st.nextIdent⟩)]) typeId
        = some ⟨v, st.nextIdent⟩ := by
      rw [lookupReg_append_of_none habs]
      simp [lookupReg]
    simp [getInstanceExc, habs, hok, hl]

theorem getInstance_construction_failure_witness :
    lookupReg (initSeq.instances) "X" = none ∧
    (fun _ : String => (Except.error "boom" : Except String String)) "FOO" =
      Except.error "boom" ∧
    getInstanceExc (fun _ => Except.error "boom") initSeq "X" "FOO" =
      (Except.error "boom", initSeq) ∧
    (fun a : String => (Except.ok a : Except String String)) "BAR" =
      Except.ok "BAR" ∧
    (getInstanceExc (fun a => Except.ok a) initSeq "X" "BAR").1 =
      Except.ok (some ⟨"BAR", 0⟩) :=
  ⟨rfl, rfl,
   (getInstance_construction_failure (fun _ => Except.error "boom") initSeq
     "X" "FOO" "boom" rfl rfl).1,
   rfl,
   (getInstance_construction_failure (fun _ => Except.error "boom") initSeq
     "X" "FOO" "boom" rfl rfl).2.2 (fun a => Except.ok a) "BAR" "BAR" rfl⟩

/-! ### Observer example (`src/Behavioral/Observer/Sample.ipynb`)

Observers are embedded by their identity (a `Nat`); `ConcreteSubject`
instances likewise.  `notify` iterates `for observer in self._observers:
observer.update(self)`; the sequence of `update` calls it performs is
embedded as a trace of events. -/

/-- An observable event of the Observer example: one `update` call delivered
to the observer with the given identity. -/
inductive Evt where
  | updateCall (o : Nat)
deriving DecidableEq, Repr

/-- The state `notify` reads: the `_observers` list of `ConcreteSubject`. -/
structure SubjectState where
  observers : List Nat
deriving DecidableEq, Repr

/-- `ConcreteSubject.attach`: `self._observers.append(observer)`. -/
def attach (st : SubjectState) (o : Nat) : SubjectState :=
  ⟨st.observers ++ [o]⟩

/-- `ConcreteSubject.notify`: `for observer in self._observers:
observer.update(self)` — the trace of `update` calls, in list order. -/
def notifyTrace (st : SubjectState) : List Evt :=
  st.observers.foldl (fun acc o => acc ++ [Evt.updateCall o]) []

theorem traceFold_eq_map (l : List Nat) (acc : List Evt) :
    l.foldl (fun acc o => acc ++ [Evt.updateCall o]) acc
      = acc ++ l.map Evt.updateCall := by
  induction l generalizing acc with
  | nil => simp
  | cons x xs ih => simp [List.foldl, ih]

theorem notifyTrace_append (l : List Nat) (o : Nat) :
    notifyTrace ⟨l ++ [o]⟩ = notifyTrace ⟨l⟩ ++ [Evt.updateCall o] := by
  simp [notifyTrace, traceFold_eq_map]

theorem attach_foldl (os : List Nat) (st : SubjectState) :
    (os.foldl attach st).observers = st.observers ++ os := by
  induction os generalizing st with
  | nil => simp
  | cons x xs ih => simp [List.foldl, attach, ih]

/-- C8: after attaching the observers `os` in order (starting from an empty
list), a `notify` call delivers exactly one `update` call to each attached
observer, in attachment order. -/
theorem notify_calls_each_observer_in_attach_order (os : List Nat) :
    notifyTrace (os.foldl attach ⟨[]⟩) = os.map Evt.updateCall := by
  have h : (os.foldl attach ⟨[]⟩).observers = os := by
    simpa using attach_foldl os ⟨[]⟩
  simp [notifyTrace, h, traceFold_eq_map]

/-- Embedding of Python `list.remove`: drop the first occurrence of `o`;
raise `ValueError` when `o` does not occur. -/
def listRemove : List Nat → Nat → Except String (List Nat)
  | [], _ => Except.error "ValueError"
  | x :: xs, o =>
    if x = o then Except.ok xs
    else (listRemove xs o).map (fun l => x :: l)

/-- `ConcreteSubject.detach`: `self._observers.remove(observer)`.  An
`Except.error` result is the propagated `ValueError`; no new state is
produced then, so the observer list is unchanged. -/
def detach (st : SubjectState) (o : Nat) : Except String SubjectState :=
  (listRemove st.observers o).map SubjectState.mk

theorem listRemove_first (l1 l2 : List Nat) (o : Nat) (h : o ∉ l1) :
    listRemove (l1 ++ o :: l2) o = Except.ok (l1 ++ l2) := by
  induction l1 with
  | nil => simp [listRemove]
  | cons x xs ih =>
    have hx : x ≠ o := by
      intro hxo
      exact h (hxo ▸ List.mem_cons_self x xs)
    have hm : o ∉ xs := fun hmem => h (List.mem_cons_of_mem x hmem)
    simp [listRemove, hx, ih hm, Except.map]

theorem listRemove_not_mem (l : List Nat) (o : Nat) (h : o ∉ l) :
    listRemove l o = Except.error "ValueError" := by
  induction l with
  | nil => rfl
  | cons x xs ih =>
    have hx : x ≠ o := by
      intro hxo
      exact h (hxo ▸ List.mem_cons_self x xs)
    have hm : o ∉ xs := fun hmem => h (List.mem_cons_of_mem x hmem)
    simp [listRemove, hx, ih hm, Except.map]

/-- C10: `detach` removes exactly the first occurrence of the observer from
the observer list; when the observer is absent it raises (`ValueError` from
`list.remove`) and produces no new list, so the observer list is unchanged. -/
theorem detach_removes_first_occurrence_or_raises :
    (∀ (l1 l2 : List Nat) (o : Nat), o ∉ l1 →
      detach ⟨l1 ++ o :: l2⟩ o = Except.ok ⟨l1 ++ l2⟩) ∧
    (∀ (st : SubjectState) (o : Nat), o ∉ st.observers →
      detach st o = Except.error "ValueError") := by
  constructor
  · intro l1 l2 o h
    simp [detach, listRemove_first l1 l2 o h, Except.map]
  · intro st o h
    simp [detach, listRemove_not_mem st.observers o h, Except.map]

theorem detach_removes_first_occurrence_or_raises_witness :
    (5 ∉ ([7] : List Nat)) ∧
    detach ⟨[7] ++ 5 :: [5]⟩ 5 = Except.ok ⟨[7] ++ [5]⟩ ∧
    (9 ∉ ([5, 7] : List Nat)) ∧
    detach ⟨[5, 7]⟩ 9 = Except.error "ValueError" :=
  ⟨by decide,
   detach_removes_first_occurrence_or_raises.1 [7] [5] 5 (by decide),
   by decide,
   detach_removes_first_occurrence_or_raises.2 ⟨[5, 7]⟩ 9 (by decide)⟩

/-! ### Sharing of `_observers` across `ConcreteSubject` instances

`_observers: List[Observer] = []` is a class attribute.  `attach` and
`detach` mutate it in place and never assign `self._observers`, and Python
attribute lookup falls back to the class attribute when the instance has
none, so all instances operate on one shared list.  The embedding keeps the
attribute semantics explicit: a heap of list objects, the class attribute
holding a reference, and a per-instance attribute map that the code never
writes. -/

/-- The relevant Python state for `ConcreteSubject`: `heap` maps list-object
references to their contents, `classAttr` is the reference stored in the
class attribute `_observers`, and `instAttr` is the per-instance
`_observers` attribute (which no code in the source ever assigns). -/
structure PyWorld where
  heap : Nat → List Nat
  classAttr : Nat
  instAttr : Nat → Option Nat

/-- Python attribute resolution for `self._observers` on instance `s`: the
instance attribute when present, otherwise the class attribute. -/
def resolveObservers (w : PyWorld) (s : Nat) : Nat :=
  match w.instAttr s with
  | some r => r
  | none => w.classAttr

/-- `attach` on instance `s`: resolve `self._observers` and append in place. -/
def attachW (w : PyWorld) (s o : Nat) : PyWorld :=
  let r := resolveObservers w s
  { w with heap := Function.update w.heap r (w.heap r ++ [o]) }

/-- `detach` on instance `s`: resolve `self._observers` and remove in place;
on `ValueError` the world is unchanged (the exception propagates). -/
def detachW (w : PyWorld) (s o : Nat) : PyWorld :=
  let r := resolveObservers w s
  match listRemove (w.heap r) o with
  | Except.ok l => { w with heap := Function.update w.heap r l }
  | Except.error _ => w

/-- A subscription-management operation performed through some instance. -/
inductive SubjOp where
  | attachOp (s o : Nat)
  | detachOp (s o : Nat)

def applyOp (w : PyWorld) : SubjOp → PyWorld
  | SubjOp.attachOp s o => attachW w s o
  | SubjOp.detachOp s o => detachW w s o

def runW (w : PyWorld) (ops : List SubjOp) : PyWorld :=
  ops.foldl applyOp w

/-- The world at program start: class attribute `_observers = []` holds
reference `0`, and no instance has its own `_observers` attribute. -/
def initWorld : PyWorld :=
  ⟨fun _ => [], 0, fun _ => none⟩

/-- `notify` on instance `s`: iterate the list that `self._observers`
resolves to. -/
def notifyTraceW (w : PyWorld) (s : Nat) : List Evt :=
  notifyTrace ⟨w.heap (resolveObservers w s)⟩

theorem applyOp_preserves_attrs (w : PyWorld) (op : SubjOp) :
    (applyOp w op).instAttr = w.instAttr ∧
    (applyOp w op).classAttr = w.classAttr := by
  cases op with
  | attachOp s o => exact ⟨rfl, rfl⟩
  | detachOp s o =>
    refine ⟨?_, ?_⟩ <;>
      · simp only [applyOp, detachW]
        cases listRemove (w.heap (resolveObservers w s)) o <;> rfl

theorem runW_preserves_attrs (ops : List SubjOp) (w : PyWorld) :
    (runW w ops).instAttr = w.instAttr ∧
    (runW w ops).classAttr = w.classAttr := by
  induction ops generalizing w with
  | nil => exact ⟨rfl, rfl⟩
  | cons op rest ih =>
    show (runW (applyOp w op) rest).instAttr = w.instAttr ∧
      (runW (applyOp w op) rest).classAttr = w.classAttr
    rw [(ih (applyOp w op)).1, (ih (applyOp w op)).2,
      (applyOp_preserves_attrs w op).1, (applyOp_preserves_attrs w op).2]
    exact ⟨rfl, rfl⟩

/-- C9: `_observers` is one class-level list shared by all `ConcreteSubject`
instances: in any world reached from program start by attach/detach
operations through any instances, attaching an observer via instance `s1`
extends the very list that `notify` via a distinct instance `s2` iterates,
so that observer is now called by `s2`'s `notify` as well. -/
theorem observers_shared_across_instances (ops : List SubjOp) (s1 s2 o : Nat)
    (hne : s1 ≠ s2) :
    notifyTraceW (attachW (runW initWorld ops) s1 o) s2 =
      notifyTraceW (runW initWorld ops) s2 ++ [Evt.updateCall o] := by
  have hinst : (runW initWorld ops).instAttr = initWorld.instAttr :=
    (runW_preserves_attrs ops initWorld).1
  have hres : ∀ s, resolveObservers (runW initWorld ops) s
      = (runW initWorld ops).classAttr := by
    intro s
    unfold resolveObservers
    rw [hinst]
    rfl
  have hres1 : ∀ s, resolveObservers (attachW (runW initWorld ops) s1 o) s
      = (runW initWorld ops).classAttr := fun s => hres s
  unfold notifyTraceW
  rw [hres1 s2, hres s2]
  have hheap : (attachW (runW initWorld ops) s1 o).heap (runW initWorld ops).classAttr
      = (runW initWorld ops).heap (runW initWorld ops).classAttr ++ [o] := by
    simp [attachW, hres s1, Function.update_same]
  rw [hheap]
  exact notifyTrace_append _ o

theorem observers_shared_across_instances_witness :
    (1 ≠ 2) ∧
    notifyTraceW (attachW (runW initWorld [SubjOp.attachOp 3 10]) 1 99) 2 =
      notifyTraceW (runW initWorld [SubjOp.attachOp 3 10]) 2 ++
        [Evt.updateCall 99] :=
  ⟨by decide,
   observers_shared_across_instances [SubjOp.attachOp 3 10] 1 2 99 (by decide)⟩

/-! ### Concurrent semantics of `SingletonMeta.__call__`

Multiple preemptible threads run the body of `__call__`, which for a thread
is the statement sequence: acquire `_lock`; test `self not in _instances`;
if absent, `instance = super().__call__(*args)` then
`self._instances[self] = instance`; read `self._instances[self]`; release
the lock (end of the `with` block); return.  Each statement is one atomic
small step; a scheduler interleaves the threads arbitrarily.  Program
counters: 0 = before acquire, 1 = at the membership test, 2 = at the
constructor call, 3 = at the dict store, 4 = at the dict read of the
`return`, 5 = at the lock release, 6 = done. -/

/-- The per-thread state of one `__call__` activation: its program counter,
its construction argument, the local variable `instance`, and the value its
`return` produced (set at pc 4 when the dict is read). -/
structure ThreadSt where
  pc : Nat
  args : String
  localInst : Option Instance
  result : Option Instance
deriving DecidableEq, Repr

/-- The shared state: the lock (`some i` when thread `i` holds it), the
`_instances` dict, the identity allocator, and the threads (indices below
`numThreads`). -/
structure GState where
  lock : Option Nat
  registry : List (String × Instance)
  nextIdent : Nat
  numThreads : Nat
  threads : Nat → ThreadSt

/-- One atomic step of thread `i` calling `__call__` for type `T`.  A thread
waiting for a held lock, or already done, leaves the state unchanged. -/
def stepThread (T : String) (s : GState) (i : Nat) : GState :=
  if i < s.numThreads then
    if (s.threads i).pc = 0 then
      if s.lock = none then
        { s with lock := some i,
                 threads := Function.update s.threads i
                   { s.threads i with pc := 1 } }
      else s
    else if (s.threads i).pc = 1 then
      if lookupReg s.registry T = none then
        { s with threads := Function.update s.threads i
                   { s.threads i with pc := 2 } }
      else
        { s with threads := Function.update s.threads i
                   { s.threads i with pc := 4 } }
    else if (s.threads i).pc = 2 then
      { s with nextIdent := s.nextIdent + 1,
               threads := Function.update s.threads i
                            { s.threads i with
                                pc := 3,
                                localInst := some ⟨(s.threads i).args, s.nextIdent⟩ } }
    else if (s.threads i).pc = 3 then
      match (s.threads i).localInst with
      | some inst =>
        { s with registry := s.registry ++ [(T, inst)],
                 threads := Function.update s.threads i
                   { s.threads i with pc := 4 } }
      | none => s
    else if (s.threads i).pc = 4 then
      { s with threads := Function.update s.threads i
                 { s.threads i with pc := 5, result := lookupReg s.registry T } }
    else if (s.threads i).pc = 5 then
      { s with lock := none,
               threads := Function.update s.threads i
                 { s.threads i with pc := 6 } }
    else s
  else s

/-- Run a schedule: a list of thread indices, each taking one step. -/
def runSched (T : String) (s : GState) (sched : List Nat) : GState :=
  sched.foldl (stepThread T) s

/-- The launch state for `n` first-time concurrent callers of the type `T`
singleton, thread `i` passing `argsOf i`: lock free, empty registry, every
thread about to enter `__call__`. -/
def initG (n : Nat) (argsOf : Nat → String) : GState :=
  ⟨none, [], 0, n, fun i => ⟨0, argsOf i, none, none⟩⟩

/-- All threads have returned from `__call__`. -/
def allDone (s : GState) : Prop :=
  ∀ i, i < s.numThreads → (s.threads i).pc = 6

instance (s : GState) : Decidable (allDone s) :=
  Nat.decidableBallLT s.numThreads fun i _ => (s.threads i).pc = 6

/-- Thread `i` is inside the `with self._lock:` block. -/
def inCrit (t : ThreadSt) : Prop :=
  1 ≤ t.pc ∧ t.pc ≤ 5

/-- No thread has constructed yet: empty registry, allocator untouched, and
every thread is before the constructor statement (pc ≤ 2). -/
def phase0 (s : GState) : Prop :=
  s.registry = [] ∧ s.nextIdent = 0 ∧
    ∀ i, i < s.numThreads → (s.threads i).pc ≤ 2

/-- Exactly one thread `j` has constructed but not yet stored: it sits at
the dict store holding the lock with its fresh local instance, every other
thread is still before the acquire. -/
def phase1 (s : GState) : Prop :=
  s.registry = [] ∧ s.nextIdent = 1 ∧
    ∃ j, j < s.numThreads ∧ (s.threads j).pc = 3 ∧
      (s.threads j).localInst = some ⟨(s.threads j).args, 0⟩ ∧
      ∀ i, i < s.numThreads → i ≠ j → (s.threads i).pc = 0

/-- The one construction has been stored: the registry is exactly one entry
for `T`, no thread will construct or store again, and every thread past the
dict read has returned that entry. -/
def phase2 (T : String) (s : GState) : Prop :=
  ∃ e : Instance, s.registry = [(T, e)] ∧ s.nextIdent = 1 ∧
    (∀ i, i < s.numThreads →
      (s.threads i).pc ≠ 2 ∧ (s.threads i).pc ≠ 3) ∧
    ∀ i, i < s.numThreads → 5 ≤ (s.threads i).pc →
      (s.threads i).result = some e

/-- The inductive invariant of the concurrent singleton: the lock is held by
exactly the thread inside the `with` block, and the system is in one of the
three construction phases. -/
structure Inv (T : String) (s : GState) : Prop where
  lockCrit : ∀ i, i < s.numThreads → (inCrit (s.threads i) ↔ s.lock = some i)
  lockValid : ∀ j, s.lock = some j → j < s.numThreads
  phases : phase0 s ∨ phase1 s ∨ phase2 T s

theorem inv_init (T : String) (n : Nat) (argsOf : Nat → String) :
    Inv T (initG n argsOf) := by
  refine ⟨?_, ?_, Or.inl ⟨rfl, rfl, ?_⟩⟩
  · intro i _
    constructor
    · intro h
      exact absurd h.1 (by simp [initG, inCrit])
    · intro h
      exact absurd h (by simp [initG])
  · intro j h
    simp [initG] at h
  · intro i _
    simp [initG]

theorem inv_step_acquire (T : String) {s : GState} (i : Nat)
    (hlc : ∀ k, k < s.numThreads → (inCrit (s.threads k) ↔ s.lock = some k))
    (hph : phase0 s ∨ phase1 s ∨ phase2 T s)
    (hN : i < s.numThreads) (hl : s.lock = none) :
    Inv T { s with lock := some i,
                   threads := Function.update s.threads i
                                { s.threads i with pc := 1 } } := by
  refine ⟨?_, ?_, ?_⟩
  · intro k hk
    dsimp only at hk ⊢
    by_cases hki : k = i
    · subst hki
      rw [Function.update_same]
      constructor
      · intro _
        rfl
      · intro _
        exact ⟨Nat.le_refl 1, show (1 : Nat) ≤ 5 by omega⟩
    · rw [Function.update_noteq hki]
      constructor
      · intro hc
        have hck := (hlc k hk).1 hc
        rw [hl] at hck
        exact absurd hck (by simp)
      · intro hik
        injection hik with hik
        exact absurd hik.symm hki
  · intro j hj
    dsimp only at hj ⊢
    injection hj with hj
    subst hj
    exact hN
  · rcases hph with hφ | hφ | hφ
    · left
      obtain ⟨hreg, hni, hpc⟩ := hφ
      refine ⟨hreg, hni, ?_⟩
      intro k hk
      dsimp only at hk ⊢
      by_cases hki : k = i
      · subst hki
        rw [Function.update_same]
        exact show (1 : Nat) ≤ 2 by omega
      · rw [Function.update_noteq hki]
        exact hpc k hk
    · exfalso
      obtain ⟨-, -, j, hjN, hj3, -, -⟩ := hφ
      have hcj : inCrit (s.threads j) := by
        unfold inCrit
        omega
      have := (hlc j hjN).1 hcj
      rw [hl] at this
      exact absurd this (by simp)
    · right; right
      obtain ⟨e, hreg, hni, hnc, hres⟩ := hφ
      refine ⟨e, hreg, hni, ?_, ?_⟩
      · intro k hk
        dsimp only at hk ⊢
        by_cases hki : k = i
        · subst hki
          rw [Function.update_same]
          exact ⟨show (1 : Nat) ≠ 2 by omega, show (1 : Nat) ≠ 3 by omega⟩
        · rw [Function.update_noteq hki]
          exact hnc k hk
      · intro k hk hk5
        dsimp only at hk hk5 ⊢
        by_cases hki : k = i
        · subst hki
          rw [Function.update_same] at hk5
          exact absurd (show (5 : Nat) ≤ 1 from hk5) (by omega)
        · rw [Function.update_noteq hki] at hk5 ⊢
          exact hres k hk hk5

theorem phase1_pc_eq_three {s : GState}
    (hlc : ∀ k, k < s.numThreads → (inCrit (s.threads k) ↔ s.lock = some k))
    (hφ : phase1 s) {i : Nat} (hiN : i < s.numThreads)
    (hcrit : inCrit (s.threads i)) : (s.threads i).pc = 3 := by
  obtain ⟨-, -, j, hjN, hj3, -, -⟩ := hφ
  have hli : s.lock = some i := (hlc i hiN).1 hcrit
  have hlj : s.lock = some j := (hlc j hjN).1 (by unfold inCrit; omega)
  rw [hli] at hlj
  injection hlj with hij
  rw [hij]
  exact hj3

theorem inv_step_check_absent (T : String) {s : GState} (i : Nat)
    (hlc : ∀ k, k < s.numThreads → (inCrit (s.threads k) ↔ s.lock = some k))
    (hlv : ∀ j, s.lock = some j → j < s.numThreads)
    (hph : phase0 s ∨ phase1 s ∨ phase2 T s)
    (hN : i < s.numThreads) (hpc : (s.threads i).pc = 1)
    (habs : lookupReg s.registry T = none) :
    Inv T { s with threads := Function.update s.threads i
                                { s.threads i with pc := 2 } } := by
  have hcrit : inCrit (s.threads i) := by unfold inCrit; omega
  have hlock : s.lock = some i := (hlc i hN).1 hcrit
  refine ⟨?_, ?_, ?_⟩
  · intro k hk
    dsimp only at hk ⊢
    by_cases hki : k = i
    · subst hki
      rw [Function.update_same]
      exact ⟨fun _ => hlock,
        fun _ => ⟨show (1 : Nat) ≤ 2 by omega, show (2 : Nat) ≤ 5 by omega⟩⟩
    · rw [Function.update_noteq hki]
      exact hlc k hk
  · intro j hj
    exact hlv j hj
  · rcases hph with hφ | hφ | hφ
    · left
      obtain ⟨hreg, hni, hpcs⟩ := hφ
      refine ⟨hreg, hni, ?_⟩
      intro k hk
      dsimp only at hk ⊢
      by_cases hki : k = i
      · subst hki
        rw [Function.update_same]
      · rw [Function.update_noteq hki]
        exact hpcs k hk
    · exfalso
      have := phase1_pc_eq_three hlc hφ hN hcrit
      omega
    · exfalso
      obtain ⟨e, hreg, -, -, -⟩ := hφ
      rw [hreg] at habs
      simp [lookupReg] at habs

theorem inv_step_check_present (T : String) {s : GState} (i : Nat)
    (hlc : ∀ k, k < s.numThreads → (inCrit (s.threads k) ↔ s.lock = some k))
    (hlv : ∀ j, s.lock = some j → j < s.numThreads)
    (hph : phase0 s ∨ phase1 s ∨ phase2 T s)
    (hN : i < s.numThreads) (hpc : (s.threads i).pc = 1)
    (hsome : ¬ lookupReg s.registry T = none) :
    Inv T { s with threads := Function.update s.threads i
                                { s.threads i with pc := 4 } } := by
  have hcrit : inCrit (s.threads i) := by unfold inCrit; omega
  have hlock : s.lock = some i := (hlc i hN).1 hcrit
  refine ⟨?_, ?_, ?_⟩
  · intro k hk
    dsimp only at hk ⊢
    by_cases hki : k = i
    · subst hki
      rw [Function.update_same]
      exact ⟨fun _ => hlock,
        fun _ => ⟨show (1 : Nat) ≤ 4 by omega, show (4 : Nat) ≤ 5 by omega⟩⟩
    · rw [Function.update_noteq hki]
      exact hlc k hk
  · intro j hj
    exact hlv j hj
  · rcases hph with hφ | hφ | hφ
    · exfalso
      obtain ⟨hreg, -, -⟩ := hφ
      rw [hreg] at hsome
      exact hsome rfl
    · exfalso
      obtain ⟨hreg, -, -⟩ := hφ
      rw [hreg] at hsome
      exact hsome rfl
    · right; right
      obtain ⟨e, hreg, hni, hnc, hres⟩ := hφ
      refine ⟨e, hreg, hni, ?_, ?_⟩
      · intro k hk
        dsimp only at hk ⊢
        by_cases hki : k = i
        · subst hki
          rw [Function.update_same]
          exact ⟨show (4 : Nat) ≠ 2 by omega, show (4 : Nat) ≠ 3 by omega⟩
        · rw [Function.update_noteq hki]
          exact hnc k hk
      · intro k hk hk5
        dsimp only at hk hk5 ⊢
        by_cases hki : k = i
        · subst hki
          rw [Function.update_same] at hk5
          exact absurd (show (5 : Nat) ≤ 4 from hk5) (by omega)
        · rw [Function.update_noteq hki] at hk5 ⊢
          exact hres k hk hk5

theorem inv_step_construct (T : String) {s : GState} (i : Nat)
    (hlc : ∀ k, k < s.numThreads → (inCrit (s.threads k) ↔ s.lock = some k))
    (hlv : ∀ j, s.lock = some j → j < s.numThreads)
    (hph : phase0 s ∨ phase1 s ∨ phase2 T s)
    (hN : i < s.numThreads) (hpc : (s.threads i).pc = 2) :
    Inv T { s with
            nextIdent := s.nextIdent + 1,
            threads := Function.update s.threads i
                         { s.threads i with
                             pc := 3,
                             localInst := some ⟨(s.threads i).args, s.nextIdent⟩ } } := by
  have hcrit : inCrit (s.threads i) := by unfold inCrit; omega
  have hlock : s.lock = some i := (hlc i hN).1 hcrit
  refine ⟨?_, ?_, ?_⟩
  · intro k hk
    dsimp only at hk ⊢
    by_cases hki : k = i
    · subst hki
      rw [Function.update_same]
      exact ⟨fun _ => hlock,
        fun _ => ⟨show (1 : Nat) ≤ 3 by omega, show (3 : Nat) ≤ 5 by omega⟩⟩
    · rw [Function.update_noteq hki]
      exact hlc k hk
  · intro j hj
    exact hlv j hj
  · rcases hph with hφ | hφ | hφ
    · right; left
      obtain ⟨hreg, hni, hpcs⟩ := hφ
      refine ⟨hreg, by rw [hni], i, hN, ?_, ?_, ?_⟩
      · dsimp only
        rw [Function.update_same]
      · dsimp only
        rw [Function.update_same, hni]
      · intro k hk hki
        dsimp only at hk ⊢
        rw [Function.update_noteq hki]
        have hnc : ¬ inCrit (s.threads k) := by
          intro hc
          have := (hlc k hk).1 hc
          rw [hlock] at this
          injection this with hik
          exact hki hik.symm
        unfold inCrit at hnc
        have := hpcs k hk
        omega
    · exfalso
      have := phase1_pc_eq_three hlc hφ hN hcrit
      omega
    · exfalso
      obtain ⟨e, -, -, hnc, -⟩ := hφ
      exact (hnc i hN).1 hpc

theorem inv_step_store (T : String) {s : GState} (i : Nat) (inst : Instance)
    (hlc : ∀ k, k < s.numThreads → (inCrit (s.threads k) ↔ s.lock = some k))
    (hlv : ∀ j, s.lock = some j → j < s.numThreads)
    (hph : phase0 s ∨ phase1 s ∨ phase2 T s)
    (hN : i < s.numThreads) (hpc : (s.threads i).pc = 3)
    (hli : (s.threads i).localInst = some inst) :
    Inv T { s with registry := s.registry ++ [(T, inst)],
                   threads := Function.update s.threads i
                                { s.threads i with pc := 4 } } := by
  have hcrit : inCrit (s.threads i) := by unfold inCrit; omega
  have hlock : s.lock = some i := (hlc i hN).1 hcrit
  refine ⟨?_, ?_, ?_⟩
  · intro k hk
    dsimp only at hk ⊢
    by_cases hki : k = i
    · subst hki
      rw [Function.update_same]
      exact ⟨fun _ => hlock,
        fun _ => ⟨show (1 : Nat) ≤ 4 by omega, show (4 : Nat) ≤ 5 by omega⟩⟩
    · rw [Function.update_noteq hki]
      exact hlc k hk
  · intro j hj
    exact hlv j hj
  · rcases hph with hφ | hφ | hφ
    · exfalso
      obtain ⟨-, -, hpcs⟩ := hφ
      have := hpcs i hN
      omega
    · right; right
      obtain ⟨hreg, hni, j, hjN, hj3, hjl, hothers⟩ := hφ
      have hij : i = j := by
        have hlj : s.lock = some j := (hlc j hjN).1 (by unfold inCrit; omega)
        rw [hlock] at hlj
        injection hlj
      subst hij
      refine ⟨inst, ?_, hni, ?_, ?_⟩
      · dsimp only
        rw [hreg]
        rfl
      · intro k hk
        dsimp only at hk ⊢
        by_cases hki : k = i
        · subst hki
          rw [Function.update_same]
          exact ⟨show (4 : Nat) ≠ 2 by omega, show (4 : Nat) ≠ 3 by omega⟩
        · rw [Function.update_noteq hki]
          have := hothers k hk hki
          omega
      · intro k hk hk5
        dsimp only at hk hk5 ⊢
        by_cases hki : k = i
        · subst hki
          rw [Function.update_same] at hk5
          exact absurd (show (5 : Nat) ≤ 4 from hk5) (by omega)
        · rw [Function.update_noteq hki] at hk5
          have := hothers k hk hki
          omega
    · exfalso
      obtain ⟨e, -, -, hnc, -⟩ := hφ
      exact (hnc i hN).2 hpc

theorem inv_step_read (T : String) {s : GState} (i : Nat)
    (hlc : ∀ k, k < s.numThreads → (inCrit (s.threads k) ↔ s.lock = some k))
    (hlv : ∀ j, s.lock = some j → j < s.numThreads)
    (hph : phase0 s ∨ phase1 s ∨ phase2 T s)
    (hN : i < s.numThreads) (hpc : (s.threads i).pc = 4) :
    Inv T { s with threads := Function.update s.threads i
                                { s.threads i with
                                    pc := 5,
                                    result := lookupReg s.registry T } } := by
  have hcrit : inCrit (s.threads i) := by unfold inCrit; omega
  have hlock : s.lock = some i := (hlc i hN).1 hcrit
  refine ⟨?_, ?_, ?_⟩
  · intro k hk
    dsimp only at hk ⊢
    by_cases hki : k = i
    · subst hki
      rw [Function.update_same]
      exact ⟨fun _ => hlock,
        fun _ => ⟨show (1 : Nat) ≤ 5 by omega, show (5 : Nat) ≤ 5 by omega⟩⟩
    · rw [Function.update_noteq hki]
      exact hlc k hk
  · intro j hj
    exact hlv j hj
  · rcases hph with hφ | hφ | hφ
    · exfalso
      obtain ⟨-, -, hpcs⟩ := hφ
      have := hpcs i hN
      omega
    · exfalso
      have := phase1_pc_eq_three hlc hφ hN hcrit
      omega
    · right; right
      obtain ⟨e, hreg, hni, hnc, hres⟩ := hφ
      refine ⟨e, hreg, hni, ?_, ?_⟩
      · intro k hk
        dsimp only at hk ⊢
        by_cases hki : k = i
        · subst hki
          rw [Function.update_same]
          exact ⟨show (5 : Nat) ≠ 2 by omega, show (5 : Nat) ≠ 3 by omega⟩
        · rw [Function.update_noteq hki]
          exact hnc k hk
      · intro k hk hk5
        dsimp only at hk hk5 ⊢
        by_cases hki : k = i
        · subst hki
          rw [Function.update_same]
          show lookupReg s.registry T = some e
          rw [hreg]
          simp [lookupReg]
        · rw [Function.update_noteq hki] at hk5 ⊢
          exact hres k hk hk5

theorem inv_step_release (T : String) {s : GState} (i : Nat)
    (hlc : ∀ k, k < s.numThreads → (inCrit (s.threads k) ↔ s.lock = some k))
    (hlv : ∀ j, s.lock = some j → j < s.numThreads)
    (hph : phase0 s ∨ phase1 s ∨ phase2 T s)
    (hN : i < s.numThreads) (hpc : (s.threads i).pc = 5) :
    Inv T { s with lock := none,
                   threads := Function.update s.threads i
                                { s.threads i with pc := 6 } } := by
  have hcrit : inCrit (s.threads i) := by unfold inCrit; omega
  have hlock : s.lock = some i := (hlc i hN).1 hcrit
  refine ⟨?_, ?_, ?_⟩
  · intro k hk
    dsimp only at hk ⊢
    by_cases hki : k = i
    · subst hki
      rw [Function.update_same]
      constructor
      · intro hc
        exact absurd (show (6 : Nat) ≤ 5 from hc.2) (by omega)
      · intro h
        exact absurd h (by simp)
    · rw [Function.update_noteq hki]
      constructor
      · intro hc
        have := (hlc k hk).1 hc
        rw [hlock] at this
        injection this with hik
        exact absurd hik.symm hki
      · intro h
        exact absurd h (by simp)
  · intro j hj
    dsimp only at hj
    exact absurd hj (by simp)
  · rcases hph with hφ | hφ | hφ
    · exfalso
      obtain ⟨-, -, hpcs⟩ := hφ
      have := hpcs i hN
      omega
    · exfalso
      have := phase1_pc_eq_three hlc hφ hN hcrit
      omega
    · right; right
      obtain ⟨e, hreg, hni, hnc, hres⟩ := hφ
      refine ⟨e, hreg, hni, ?_, ?_⟩
      · intro k hk
        dsimp only at hk ⊢
        by_cases hki : k = i
        · subst hki
          rw [Function.update_same]
          exact ⟨show (6 : Nat) ≠ 2 by omega, show (6 : Nat) ≠ 3 by omega⟩
        · rw [Function.update_noteq hki]
          exact hnc k hk
      · intro k hk hk5
        dsimp only at hk hk5 ⊢
        by_cases hki : k = i
        · subst hki
          rw [Function.update_same]
          show (s.threads k).result = some e
          exact hres k hN (by omega)
        · rw [Function.update_noteq hki] at hk5 ⊢
          exact hres k hk hk5

theorem inv_step (T : String) {s : GState} (hs : Inv T s) (i : Nat) :
    Inv T (stepThread T s i) := by
  obtain ⟨hlc, hlv, hph⟩ := hs
  by_cases hN : i < s.numThreads
  · by_cases h0 : (s.threads i).pc = 0
    · by_cases hl : s.lock = none
      · have hstep : stepThread T s i =
            { s with lock := some i,
                     threads := Function.update s.threads i
                                  { s.threads i with pc := 1 } } := by
          simp [stepThread, hN, h0, hl]
        rw [hstep]
        exact inv_step_acquire T i hlc hph hN hl
      · have hstep : stepThread T s i = s := by
          simp [stepThread, hN, h0, hl]
        rw [hstep]
        exact ⟨hlc, hlv, hph⟩
    · by_cases h1 : (s.threads i).pc = 1
      · by_cases habs : lookupReg s.registry T = none
        · have hstep : stepThread T s i =
              { s with threads := Function.update s.threads i
                                    { s.threads i with pc := 2 } } := by
            simp [stepThread, hN, h0, h1, habs]
          rw [hstep]
          exact inv_step_check_absent T i hlc hlv hph hN h1 habs
        · have hstep : stepThread T s i =
              { s with threads := Function.update s.threads i
                                    { s.threads i with pc := 4 } } := by
            simp [stepThread, hN, h0, h1, habs]
          rw [hstep]
          exact inv_step_check_present T i hlc hlv hph hN h1 habs
      · by_cases h2 : (s.threads i).pc = 2
        · have hstep : stepThread T s i =
              { s with
                nextIdent := s.nextIdent + 1,
                threads := Function.update s.threads i
                             { s.threads i with
                                 pc := 3,
                                 localInst := some ⟨(s.threads i).args, s.nextIdent⟩ } } := by
            simp [stepThread, hN, h0, h1, h2]
          rw [hstep]
          exact inv_step_construct T i hlc hlv hph hN h2
        · by_cases h3 : (s.threads i).pc = 3
          · cases hli : (s.threads i).localInst with
            | none =>
              have hstep : stepThread T s i = s := by
                simp [stepThread, hN, h0, h1, h2, h3, hli]
              rw [hstep]
              exact ⟨hlc, hlv, hph⟩
            | some inst =>
              have hstep : stepThread T s i =
                  { s with registry := s.registry ++ [(T, inst)],
                           threads := Function.update s.threads i
                                        { s.threads i with pc := 4 } } := by
                simp [stepThread, hN, h0, h1, h2, h3, hli]
              rw [hstep]
              exact inv_step_store T i inst hlc hlv hph hN h3 hli
          · by_cases h4 : (s.threads i).pc = 4
            · have hstep : stepThread T s i =
                  { s with threads := Function.update s.threads i
                                        { s.threads i with
                                            pc := 5,
                                            result := lookupReg s.registry T } } := by
                simp [stepThread, hN, h0, h1, h2, h3, h4]
              rw [hstep]
              exact inv_step_read T i hlc hlv hph hN h4
            · by_cases h5 : (s.threads i).pc = 5
              · have hstep : stepThread T s i =
                    { s with lock := none,
                             threads := Function.update s.threads i
                                          { s.threads i with pc := 6 } } := by
                  simp [stepThread, hN, h0, h1, h2, h3, h4, h5]
                rw [hstep]
                exact inv_step_release T i hlc hlv hph hN h5
              · have hstep : stepThread T s i = s := by
                  simp [stepThread, hN, h0, h1, h2, h3, h4, h5]
                rw [hstep]
                exact ⟨hlc, hlv, hph⟩
  · have hstep : stepThread T s i = s := by
      simp [stepThread, hN]
    rw [hstep]
    exact ⟨hlc, hlv, hph⟩

theorem inv_run (T : String) {s : GState} (hs : Inv T s) (sched : List Nat) :
    Inv T (runSched T s sched) := by
  induction sched generalizing s with
  | nil => exact hs
  | cons i rest ih =>
    show Inv T (runSched T (stepThread T s i) rest)
    exact ih (inv_step T hs i)

theorem step_numThreads (T : String) (s : GState) (i : Nat) :
    (stepThread T s i).numThreads = s.numThreads := by
  by_cases hN : i < s.numThreads
  · by_cases h0 : (s.threads i).pc = 0
    · by_cases hl : s.lock = none <;> simp [stepThread, hN, h0, hl]
    · by_cases h1 : (s.threads i).pc = 1
      · by_cases habs : lookupReg s.registry T = none <;>
          simp [stepThread, hN, h0, h1, habs]
      · by_cases h2 : (s.threads i).pc = 2
        · simp [stepThread, hN, h0, h1, h2]
        · by_cases h3 : (s.threads i).pc = 3
          · cases hli : (s.threads i).localInst <;>
              simp [stepThread, hN, h0, h1, h2, h3, hli]
          · by_cases h4 : (s.threads i).pc = 4
            · simp [stepThread, hN, h0, h1, h2, h3, h4]
            · by_cases h5 : (s.threads i).pc = 5 <;>
                simp [stepThread, hN, h0, h1, h2, h3, h4, h5]
  · simp [stepThread, hN]

theorem run_numThreads (T : String) (sched : List Nat) (s : GState) :
    (runSched T s sched).numThreads = s.numThreads := by
  induction sched generalizing s with
  | nil => rfl
  | cons i rest ih =>
    show (runSched T (stepThread T s i) rest).numThreads = s.numThreads
    rw [ih (stepThread T s i), step_numThreads]

/-- C1: for any number `n ≥ 1` of concurrent first-time callers of
`getInstance` for the same type identifier `T` and any complete interleaving
of their atomic steps, the underlying class is constructed exactly once (the
identity allocator, bumped once per constructor call, ends at `1`, and the
registry holds the single entry for `T`), and all `n` calls return that
same-identity instance. -/
theorem concurrent_getInstance_single_construction (T : String) (n : Nat)
    (argsOf : Nat → String) (sched : List Nat) (hn : 1 ≤ n)
    (hdone : allDone (runSched T (initG n argsOf) sched)) :
    ∃ e : Instance,
      (runSched T (initG n argsOf) sched).registry = [(T, e)] ∧
      (runSched T (initG n argsOf) sched).nextIdent = 1 ∧
      ∀ i, i < n →
        ((runSched T (initG n argsOf) sched).threads i).result = some e := by
  have hinv : Inv T (runSched T (initG n argsOf) sched) :=
    inv_run T (inv_init T n argsOf) sched
  have hNT : (runSched T (initG n argsOf) sched).numThreads = n :=
    run_numThreads T sched (initG n argsOf)
  obtain ⟨hlc, hlv, hph⟩ := hinv
  rcases hph with hφ | hφ | hφ
  · exfalso
    obtain ⟨-, -, hpcs⟩ := hφ
    have h6 := hdone 0 (by rw [hNT]; omega)
    have h2 := hpcs 0 (by rw [hNT]; omega)
    omega
  · exfalso
    obtain ⟨-, -, j, hjN, hj3, -, -⟩ := hφ
    have := hdone j hjN
    omega
  · obtain ⟨e, hreg, hni, -, hres⟩ := hφ
    refine ⟨e, hreg, hni, ?_⟩
    intro i hi
    have hiN : i < (runSched T (initG n argsOf) sched).numThreads := by
      rw [hNT]
      exact hi
    have h6 := hdone i hiN
    exact hres i hiN (by omega)

theorem concurrent_getInstance_single_construction_witness :
    (1 ≤ 2) ∧
    allDone (runSched "X" (initG 2 fun i => if i = 0 then "FOO" else "BAR")
      [0, 1, 0, 0, 1, 0, 0, 0, 1, 1, 1, 1]) ∧
    ∃ e : Instance,
      (runSched "X" (initG 2 fun i => if i = 0 then "FOO" else "BAR")
        [0, 1, 0, 0, 1, 0, 0, 0, 1, 1, 1, 1]).registry = [("X", e)] ∧
      (runSched "X" (initG 2 fun i => if i = 0 then "FOO" else "BAR")
        [0, 1, 0, 0, 1, 0, 0, 0, 1, 1, 1, 1]).nextIdent = 1 ∧
      ∀ i, i < 2 →
        ((runSched "X" (initG 2 fun i => if i = 0 then "FOO" else "BAR")
          [0, 1, 0, 0, 1, 0, 0, 0, 1, 1, 1, 1]).threads i).result = some e :=
  ⟨by decide, by decide,
   concurrent_getInstance_single_construction "X" 2
     (fun i => if i = 0 then "FOO" else "BAR")
     [0, 1, 0, 0, 1, 0, 0, 0, 1, 1, 1, 1] (by decide) (by decide)⟩

/-- C5: in every state reachable by any interleaving, a thread whose next
statement touches the `_instances` registry — the membership check (pc 1),
the dict store (pc 3), or the dict read of the `return` (pc 4), the only
steps of `stepThread` that read or mutate the registry — holds the Guard
(`_lock = some i`).  The acquire at pc 0 therefore precedes the existence
check unconditionally: there is no unguarded fast-path check, and the
registry is never read or mutated without holding the Guard. -/
theorem registry_access_only_with_lock (T : String) (n : Nat)
    (argsOf : Nat → String) (sched : List Nat) (i : Nat) (hi : i < n)
    (hacc : ((runSched T (initG n argsOf) sched).threads i).pc = 1 ∨
            ((runSched T (initG n argsOf) sched).threads i).pc = 3 ∨
            ((runSched T (initG n argsOf) sched).threads i).pc = 4) :
    (runSched T (initG n argsOf) sched).lock = some i := by
  have hinv : Inv T (runSched T (initG n argsOf) sched) :=
    inv_run T (inv_init T n argsOf) sched
  have hNT : (runSched T (initG n argsOf) sched).numThreads = n :=
    run_numThreads T sched (initG n argsOf)
  have hcrit : inCrit ((runSched T (initG n argsOf) sched).threads i) := by
    unfold inCrit
    rcases hacc with h | h | h <;> omega
  exact (hinv.lockCrit i (by rw [hNT]; exact hi)).1 hcrit

theorem registry_access_only_with_lock_witness :
    (0 < 1) ∧
    ((runSched "X" (initG 1 fun _ => "FOO") [0]).threads 0).pc = 1 ∧
    (runSched "X" (initG 1 fun _ => "FOO") [0]).lock = some 0 :=
  ⟨by decide, by decide,
   registry_access_only_with_lock "X" 1 (fun _ => "FOO") [0] 0 (by decide)
     (Or.inl (by decide))⟩

end GoF
